import Mathlib

/-!
Shallow embedding of the delivery-robot program of `src/robot.js`.

The embedding covers: graph construction from dash-separated edge
descriptors (`buildGraph`), the immutable village state and its `move`
transition, the breadth-first route search (`findRoute`), the
goal-oriented and lazy strategies, and the step-counting simulator loop
(`countSteps`).

JavaScript exceptions are modelled by the `JsError` type: `typeError`
stands for the `TypeError` raised when a property of `undefined` is
accessed (for example iterating `graph[p]` for an unregistered place, or
reading `route[0]` when `findRoute` returned `undefined`), and
`reduceEmpty` stands for the `TypeError` raised by `Array.prototype.reduce`
on an empty array with no initial value.  A JavaScript function that can
throw is modelled as returning `Except JsError`; a JavaScript value that
can be `undefined` is modelled as an `Option`.
-/

namespace Robot

/-- A place is an opaque string label, as in the source. -/
abbrev Place := String

/-- The two kinds of JavaScript runtime errors the program can raise. -/
inductive JsError where
  | typeError
  | reduceEmpty
deriving DecidableEq, Repr

deriving instance DecidableEq for Except

/-- The adjacency structure built by `buildGraph`: a JavaScript object with
one entry per registered place, in insertion order, mapping it to its
ordered list of neighbors.  Keys are unique (object property semantics). -/
abbrev Graph := List (Place × List Place)

/-- Property lookup `graph[p]`: `none` models the JavaScript `undefined`
obtained when `p` was never registered. -/
def lookupG : Graph → Place → Option (List Place)
  | [], _ => none
  | (q, ns) :: rest, p => if q = p then some ns else lookupG rest p

/-- The helper `addEdge(from, to)` of `buildGraph`: if `src` is already a
key, push `dst` onto its neighbor list, otherwise create the entry. -/
def addEdge : Graph → Place → Place → Graph
  | [], src, dst => [(src, [dst])]
  | (q, ns) :: rest, src, dst =>
    if q = src then (q, ns ++ [dst]) :: rest
    else (q, ns) :: addEdge rest src dst

/-- Splitting a character list on every dash, mirroring
`String.prototype.split("-")`. -/
def splitDashAll : List Char → List (List Char)
  | [] => [[]]
  | c :: cs =>
    match splitDashAll cs with
    | [] => [[]]
    | g :: gs => if c = '-' then [] :: g :: gs else (c :: g) :: gs

/-- Parsing one edge descriptor: `r.split("-")` destructured as
`[from, to]` (parts beyond the second are dropped, exactly as the
JavaScript destructuring does).  All descriptors of the program contain a
dash; the second component of a dash-less descriptor would be the
JavaScript `undefined`, rendered here as the empty label. -/
def parseEdge (r : String) : Place × Place :=
  match (splitDashAll r.data).map (fun cs => String.mk cs) with
  | f :: t :: _ => (f, t)
  | [f] => (f, "")
  | [] => ("", "")

/-- `buildGraph(edges)`: for each descriptor register both directions, in
input order. -/
def buildGraph (edges : List String) : Graph :=
  edges.foldl
    (fun g e =>
      let ft := parseEdge e
      addEdge (addEdge g ft.1 ft.2) ft.2 ft.1)
    []

/-- The fixed `roads` edge list of the village. -/
def roads : List String :=
  ["Alice\x27s House-Bob\x27s House",
   "Alice\x27s House-Cabin",
   "Alice\x27s House-Post Office",
   "Bob\x27s House-Town Hall",
   "Daria\x27s House-Ernie\x27s House",
   "Daria\x27s House-Town Hall",
   "Ernie\x27s House-Grete\x27s House",
   "Grete\x27s House-Farm",
   "Grete\x27s House-Shop",
   "Marketplace-Farm",
   "Marketplace-Post Office",
   "Marketplace-Shop",
   "Marketplace-Town Hall",
   "Shop-Town Hall"]

/-- The global `roadGraph` used by `VillageState.move` and the strategies. -/
def roadGraph : Graph := buildGraph roads

/-- A parcel: where it currently is and where it must be delivered. -/
structure Parcel where
  place : Place
  address : Place
deriving DecidableEq, Repr

/-- The village state: agent location plus the parcel sequence. -/
structure VillageState where
  place : Place
  parcels : List Parcel
deriving DecidableEq, Repr

/-- The per-parcel update performed inside `move`: a parcel at the agent
location travels to the destination, all others are untouched. -/
def parcelStep (agentPlace dest : Place) (p : Parcel) : Parcel :=
  if p.place ≠ agentPlace then p else { place := dest, address := p.address }

/-- `VillageState.move(destination)`.  Reading
`roadGraph[this.place].includes(destination)` throws a `TypeError` when the
agent location is unregistered; a non-adjacent destination returns `this`
unchanged; otherwise a new state is built by relocating the parcels at the
agent location and filtering out the delivered ones. -/
def move (s : VillageState) (dest : Place) : Except JsError VillageState :=
  match lookupG roadGraph s.place with
  | none => .error JsError.typeError
  | some ns =>
    if dest ∈ ns then
      .ok { place := dest,
            parcels := (s.parcels.map (parcelStep s.place dest)).filter
              (fun p => p.place ≠ p.address) }
    else
      .ok s

/-- `move` applied to a direction that may be the JavaScript `undefined`
(`none`), as happens when a strategy emits `route[0]` of an empty route;
`includes(undefined)` is false, so the move is a no-op. -/
def moveJ (s : VillageState) (dest : Option Place) : Except JsError VillageState :=
  match dest with
  | some d => move s d
  | none =>
    match lookupG roadGraph s.place with
    | none => .error JsError.typeError
    | some _ => .ok s

/-- One entry of the BFS work list of `findRoute`. -/
structure WorkItem where
  atP : Place
  route : List Place
deriving DecidableEq, Repr

/-- The places already present in the work list; `work.some(w => w.at == place)`
tests membership in this list. -/
def atPs (work : List WorkItem) : List Place := work.map WorkItem.atP

/-- The inner `for (let place of graph[at])` loop of `findRoute`: scan the
neighbors in order; on meeting the target return the extended route at
once, otherwise push every not-yet-seen neighbor onto the work list. -/
def scanNbrs (dst : Place) (route : List Place) :
    List Place → List WorkItem → Option (List Place) × List WorkItem
  | [], work => (none, work)
  | p :: ps, work =>
    if p = dst then (some (route ++ [p]), work)
    else if work.any (fun w => w.atP = p) then scanNbrs dst route ps work
    else scanNbrs dst route ps (work ++ [⟨p, route ++ [p]⟩])

/-- All places occurring in some neighbor list of the graph. -/
def nbrUniverse (g : Graph) : List Place := (g.map (fun kv => kv.2)).flatten

/-- An upper bound on the number of loop iterations `findRoute` can make:
the work list holds pairwise distinct places drawn from the start place and
the neighbor lists, so it never grows past `nbrUniverse g + 1` entries. -/
def fuelBound (g : Graph) : Nat := (nbrUniverse g).length + 2

/-- The outer `for (let i = 0; i < work.length; i++)` loop of `findRoute`.
`none` means the fuel ran out (which `findRouteAux_total` shows cannot
happen at `fuelBound`); `some (.ok none)` models falling off the loop and
returning `undefined`; `some (.error _)` models the `TypeError` thrown by
iterating `graph[at]` for an unregistered place. -/
def findRouteAux (g : Graph) (dst : Place) (fuel : Nat) (work : List WorkItem)
    (i : Nat) : Option (Except JsError (Option (List Place))) :=
  match work[i]? with
  | none => some (.ok none)
  | some wi =>
    match fuel with
    | 0 => none
    | fuel' + 1 =>
      match lookupG g wi.atP with
      | none => some (.error JsError.typeError)
      | some nbrs =>
        match scanNbrs dst wi.route nbrs work with
        | (some r, _) => some (.ok (some r))
        | (none, work') => findRouteAux g dst fuel' work' (i + 1)

/-- `findRoute(graph, from, to)`: run the loop from the seeded work list.
The fuel `fuelBound g` is provably sufficient, so the `none` fallback
(mapped to the undefined result) is dead code. -/
def findRoute (g : Graph) (src dst : Place) : Except JsError (Option (List Place)) :=
  match findRouteAux g dst (fuelBound g) [⟨src, []⟩] 0 with
  | some res => res
  | none => .ok none

/-- One candidate considered by `lazyRobot`: the route computed by
`findRoute` (possibly the JavaScript `undefined`) tagged with whether it is
a pickup leg. -/
structure Candidate where
  route : Option (List Place)
  pickUp : Bool
deriving DecidableEq, Repr

/-- What a strategy returns: the direction to move (possibly `undefined`)
and the new memory, whose type is private to the strategy. -/
structure RobotAction (M : Type) where
  direction : Option Place
  memory : M
deriving DecidableEq, Repr

/-- `{direction: route[0], memory: route.slice(1)}`. -/
def emit (r : List Place) : RobotAction (List Place) := ⟨r.head?, r.drop 1⟩

/-- The candidate `lazyRobot` computes for one parcel: the pickup leg when
the parcel is elsewhere, the delivery leg when it is at the agent location. -/
def candidateFor (s : VillageState) (parcel : Parcel) : Except JsError Candidate :=
  if parcel.place ≠ s.place then
    (findRoute roadGraph s.place parcel.place).map (fun r => ⟨r, true⟩)
  else
    (findRoute roadGraph s.place parcel.address).map (fun r => ⟨r, false⟩)

/-- `parcels.map(...)` inside `lazyRobot`: all candidates, in parcel order. -/
def candidatesFor (s : VillageState) : Except JsError (List Candidate) :=
  s.parcels.mapM (candidateFor s)

/-- The `score` closure of `lazyRobot`; reading `route.length` of the
JavaScript `undefined` throws. -/
def scoreE (c : Candidate) : Except JsError ℚ :=
  match c.route with
  | none => .error JsError.typeError
  | some r => .ok ((if c.pickUp then (1 : ℚ) / 2 else 0) - r.length)

/-- The fold performed by `routes.reduce((a, b) => score(a) > score(b) ? a : b)`
after its first step. -/
def reduceGo : Candidate → List Candidate → Except JsError Candidate
  | a, [] => .ok a
  | a, b :: rest => do
    let sa ← scoreE a
    let sb ← scoreE b
    reduceGo (if sb < sa then a else b) rest

/-- `routes.reduce(...)` with no initial value: throws on an empty array. -/
def reduceScored : List Candidate → Except JsError Candidate
  | [] => .error JsError.reduceEmpty
  | c :: cs => reduceGo c cs

/-- The `lazyRobot` strategy. -/
def lazyRobot (s : VillageState) (route : List Place) :
    Except JsError (RobotAction (List Place)) :=
  if route.isEmpty then do
    let cs ← candidatesFor s
    let c ← reduceScored cs
    match c.route with
    | none => .error JsError.typeError
    | some r => .ok (emit r)
  else
    .ok (emit route)

/-- The `goalOrientedRobot` strategy: read the first parcel (throwing when
there is none), compute the pickup or delivery route, and follow it. -/
def goalOrientedRobot (s : VillageState) (route : List Place) :
    Except JsError (RobotAction (List Place)) :=
  if route.isEmpty then
    match s.parcels.head? with
    | none => .error JsError.typeError
    | some parcel => do
      let r ←
        if parcel.place ≠ s.place then findRoute roadGraph s.place parcel.place
        else findRoute roadGraph s.place parcel.address
      match r with
      | none => .error JsError.typeError
      | some rr => .ok (emit rr)
  else
    .ok (emit route)

/-- The `countSteps` simulator loop, fuelled: `some steps` when all parcels
were delivered within the fuel, `none` when the fuel ran out (the
JavaScript loop has no step limit).  The emptiness test runs before every
strategy call, exactly as in the source. -/
def countSteps {M : Type} (fuel : Nat) (s : VillageState)
    (robot : VillageState → M → Except JsError (RobotAction M)) (mem : M)
    (steps : Nat) : Except JsError (Option Nat) :=
  match fuel with
  | 0 => .ok none
  | fuel' + 1 =>
    if s.parcels.isEmpty then .ok (some steps)
    else do
      let action ← robot s mem
      let s' ← moveJ s action.direction
      countSteps fuel' s' robot action.memory (steps + 1)

/-- The neighbor relation of a graph, as used by route validity:
`isNbr g a b` holds when `b` occurs in the neighbor list of `a`. -/
def isNbr (g : Graph) (a b : Place) : Bool :=
  match lookupG g a with
  | none => false
  | some ns => b ∈ ns

/-- Route validity: `isRouteB g src r dst` holds when `r` is a walk of the
graph that starts at a neighbor of `src`, follows edges, and ends at `dst`
(the origin itself is excluded from the route, as in the program). -/
def isRouteB (g : Graph) : Place → List Place → Place → Bool
  | src, [], dst => src = dst
  | src, p :: ps, dst => isNbr g src p && isRouteB g p ps dst


/-- The graph query described by the specification as
`neighbors(p)`: reading `graph[p]` and using the result.  Using the
JavaScript `undefined` obtained for an unregistered place (iterating it in
`findRoute`, or calling `.includes` on it in `move`) throws a `TypeError`
at once. -/
def neighbors (g : Graph) (p : Place) : Except JsError (List Place) :=
  match lookupG g p with
  | none => .error JsError.typeError
  | some ns => .ok ns

/-- The places registered by an edge list: both endpoints of every
descriptor, in order. -/
def placesOf (edges : List String) : List Place :=
  (edges.map (fun e => [(parseEdge e).1, (parseEdge e).2])).flatten

/-- Modelled from the spec (section 4.3, steps 2 and 3): relocate every
parcel whose location equals the agent location to the destination, leave
all other parcels untouched, then remove every parcel whose location
equals its own delivery address, and move the agent to the destination.
This is the reference transition the `move` of the code is compared with. -/
def moveSpec (s : VillageState) (dest : Place) : VillageState :=
  { place := dest,
    parcels := ((s.parcels.map fun p =>
        if p.place = s.place then { place := dest, address := p.address } else p).filter
      fun p => p.place ≠ p.address) }

/-- The exact rational value of the score closure on a candidate whose
route is defined: `(pickUp ? 0.5 : 0) - route.length`. -/
def scoreQ (c : Candidate) : ℚ :=
  (if c.pickUp then (1 : ℚ) / 2 else 0) - ((c.route.getD []).length : ℚ)

/-- The loop invariant of the breadth-first search of `findRoute`, over the
full work list `work` and the index `i` of the entry being processed:
the index is in range, the start place is listed and the target is not,
listed places are pairwise distinct and registered, every stored route is
a valid shortest route to its place, route lengths grow along the list and
by at most one past the current entry, every processed entry has all its
neighbors listed and none equal to the target, and every place reachable
within the current depth is already listed. -/
structure Inv (g : Graph) (src dst : Place) (work : List WorkItem) (i : Nat) : Prop where
  hle : i ≤ work.length
  hsrc : src ∈ atPs work
  hdst : dst ∉ atPs work
  hnodup : (atPs work).Nodup
  hreg : ∀ w ∈ work, ∃ ns, lookupG g w.atP = some ns
  hroutes : ∀ w ∈ work, isRouteB g src w.route w.atP = true
  hmin : ∀ w ∈ work, ∀ r, isRouteB g src r w.atP = true → w.route.length ≤ r.length
  hmono : List.Pairwise (fun a b => a.route.length ≤ b.route.length) work
  hbound : ∀ w ∈ work, ∀ wi, work[i]? = some wi → w.route.length ≤ wi.route.length + 1
  hprocessed : ∀ j, j < i → ∀ wj, work[j]? = some wj →
    ∃ ns, lookupG g wj.atP = some ns ∧ ∀ p ∈ ns, p ≠ dst ∧ p ∈ atPs work
  hcover : ∀ wi, work[i]? = some wi → ∀ u r, isRouteB g src r u = true →
    r.length ≤ wi.route.length → u ∈ atPs work

section Lemmas

lemma parcelStep_eq (agentPlace dest : Place) (p : Parcel) :
    parcelStep agentPlace dest p =
      if p.place = agentPlace then { place := dest, address := p.address } else p := by
  unfold parcelStep
  by_cases h : p.place = agentPlace <;> simp [h]

lemma lookup_addEdge_self (g : Graph) (a b : Place) :
    lookupG (addEdge g a b) a = some (((lookupG g a).getD []) ++ [b]) := by
  induction g with
  | nil => simp [addEdge, lookupG]
  | cons kv rest ih =>
    obtain ⟨q, ns⟩ := kv
    by_cases h : q = a
    · subst h
      simp [addEdge, lookupG]
    · simp [addEdge, lookupG, h, ih]

lemma lookup_addEdge_ne (g : Graph) (a b p : Place) (h : p ≠ a) :
    lookupG (addEdge g a b) p = lookupG g p := by
  induction g with
  | nil => simp [addEdge, lookupG, Ne.symm h]
  | cons kv rest ih =>
    obtain ⟨q, ns⟩ := kv
    by_cases hq : q = a
    · subst hq
      simp [addEdge, lookupG, Ne.symm h]
    · by_cases hp : q = p <;> simp [addEdge, lookupG, hq, hp, ih, h]

lemma isSome_lookup_addEdge (g : Graph) (a b p : Place) :
    (lookupG (addEdge g a b) p).isSome ↔ p = a ∨ (lookupG g p).isSome := by
  by_cases h : p = a
  · subst h
    simp [lookup_addEdge_self]
  · simp [lookup_addEdge_ne g a b p h, h]

lemma isSome_lookup_buildGraph_foldl (es : List String) :
    ∀ (g : Graph) (p : Place),
      (lookupG (es.foldl (fun g e =>
          let ft := parseEdge e
          addEdge (addEdge g ft.1 ft.2) ft.2 ft.1) g) p).isSome ↔
        (lookupG g p).isSome ∨ p ∈ placesOf es := by
  induction es with
  | nil => simp [placesOf]
  | cons e rest ih =>
    intro g p
    rw [List.foldl_cons, ih]
    simp only [isSome_lookup_addEdge, placesOf, List.map_cons, List.flatten_cons,
      List.mem_append, List.mem_cons, List.mem_singleton]
    tauto

lemma isSome_lookup_buildGraph (edges : List String) (p : Place) :
    (lookupG (buildGraph edges) p).isSome ↔ p ∈ placesOf edges := by
  unfold buildGraph
  rw [isSome_lookup_buildGraph_foldl]
  simp [lookupG]

end Lemmas

/-- C3: a destination that is not among the neighbors of the agent
location makes `move` return the input state itself, unchanged in every
observable field; the embedding is purely functional, so the input value
is never mutated. -/
theorem move_nonadjacent_is_noop (s : VillageState) (dest : Place) (ns : List Place)
    (hns : lookupG roadGraph s.place = some ns) (hdest : dest ∉ ns) :
    move s dest = .ok s := by
  unfold move
  rw [hns]
  simp [hdest]

/-- Witness for C3: from the Cabin, whose only neighbor is the house of
Alice, moving to the Post Office is a no-op. -/
theorem move_nonadjacent_is_noop_witness :
    move ⟨"Cabin", [⟨"Post Office", "Farm"⟩]⟩ "Post Office" =
      .ok ⟨"Cabin", [⟨"Post Office", "Farm"⟩]⟩ :=
  move_nonadjacent_is_noop ⟨"Cabin", [⟨"Post Office", "Farm"⟩]⟩ "Post Office"
    ["Alice\x27s House"] (by decide) (by decide)

/-- C4: an adjacent destination produces the state the specification
describes: the agent at the destination, parcels at the old agent location
relocated to the destination, all others untouched, and every parcel now
at its own address removed; in particular the Post Office scenario
delivers its single parcel. -/
theorem move_adjacent_spec :
    (∀ (s : VillageState) (dest : Place) (ns : List Place),
      lookupG roadGraph s.place = some ns → dest ∈ ns →
        move s dest = .ok (moveSpec s dest)) ∧
    move ⟨"Post Office", [⟨"Post Office", "Alice\x27s House"⟩]⟩ "Alice\x27s House" =
      .ok ⟨"Alice\x27s House", []⟩ := by
  constructor
  · intro s dest ns hns hdest
    unfold move moveSpec
    rw [hns]
    simp only [hdest, if_pos]
    have hmap : s.parcels.map (parcelStep s.place dest) =
        s.parcels.map (fun p =>
          if p.place = s.place then { place := dest, address := p.address } else p) :=
      List.map_congr_left (fun p _ => parcelStep_eq s.place dest p)
    rw [hmap]
  · decide

/-- Witness for C4: the first conjunct applied to the Post Office scenario. -/
theorem move_adjacent_spec_witness :
    move ⟨"Post Office", [⟨"Post Office", "Alice\x27s House"⟩]⟩ "Alice\x27s House" =
      .ok (moveSpec ⟨"Post Office", [⟨"Post Office", "Alice\x27s House"⟩]⟩
        "Alice\x27s House") :=
  move_adjacent_spec.1 ⟨"Post Office", [⟨"Post Office", "Alice\x27s House"⟩]⟩
    "Alice\x27s House" ["Alice\x27s House", "Marketplace"] (by decide) (by decide)

/-- Counterexample for C5 as stated: on a state that already carries a
parcel sitting at its own address, a move towards a non-adjacent
destination returns the state unchanged, so the result still contains a
parcel whose location equals its delivery address. -/
theorem move_delivery_invariant_cex :
    move ⟨"Cabin", [⟨"Post Office", "Post Office"⟩]⟩ "Post Office" =
      .ok ⟨"Cabin", [⟨"Post Office", "Post Office"⟩]⟩ ∧
    ∃ p ∈ (⟨"Cabin", [⟨"Post Office", "Post Office"⟩]⟩ : VillageState).parcels,
      p.place = p.address := by
  constructor
  · decide
  · exact ⟨⟨"Post Office", "Post Office"⟩, by decide⟩

/-- C5 (amended): provided no parcel of the input already sits at its own
address (the invariant every constructed or evolved state satisfies),
every `move` result again contains no parcel whose location equals its
delivery address; for an adjacent destination this needs no hypothesis,
because the filter inside `move` removes exactly those parcels. -/
theorem move_preserves_delivery_invariant (s : VillageState) (dest : Place)
    (hinv : ∀ p ∈ s.parcels, p.place ≠ p.address) (s' : VillageState)
    (h : move s dest = .ok s') : ∀ p ∈ s'.parcels, p.place ≠ p.address := by
  unfold move at h
  cases hl : lookupG roadGraph s.place with
  | none => rw [hl] at h; exact absurd h (by simp)
  | some ns =>
    rw [hl] at h
    dsimp only at h
    by_cases hdest : dest ∈ ns
    · rw [if_pos hdest] at h
      cases h
      intro p hp
      have := List.of_mem_filter hp
      simpa using this
    · rw [if_neg hdest] at h
      cases h
      exact hinv

/-- Witness for C5 (amended): after moving from the Post Office to the
house of Alice, the surviving Marketplace parcel is not at its own
address. -/
theorem move_preserves_delivery_invariant_witness :
    (⟨"Marketplace", "Farm"⟩ : Parcel).place ≠
      (⟨"Marketplace", "Farm"⟩ : Parcel).address :=
  move_preserves_delivery_invariant
    ⟨"Post Office", [⟨"Marketplace", "Farm"⟩]⟩ "Alice\x27s House"
    (by decide) ⟨"Alice\x27s House", [⟨"Marketplace", "Farm"⟩]⟩ (by decide)
    ⟨"Marketplace", "Farm"⟩ (by decide)

/-- C9: `move` never reorders parcels: the parcel sequence of the result
is a sublist of the position-preserving image of the input sequence under
the per-parcel relocation map (the adjacent case), or is the input
sequence itself (the no-op case), so the surviving parcels keep their
relative order and the meaning of the first parcel is stable. -/
theorem move_preserves_parcel_order (s : VillageState) (dest : Place)
    (s' : VillageState) (h : move s dest = .ok s') :
    List.Sublist s'.parcels (s.parcels.map (parcelStep s.place dest)) ∨
      s'.parcels = s.parcels := by
  unfold move at h
  cases hl : lookupG roadGraph s.place with
  | none => rw [hl] at h; exact absurd h (by simp)
  | some ns =>
    rw [hl] at h
    dsimp only at h
    by_cases hdest : dest ∈ ns
    · rw [if_pos hdest] at h
      cases h
      exact Or.inl (List.filter_sublist _)
    · rw [if_neg hdest] at h
      cases h
      exact Or.inr rfl

/-- Witness for C9: the delivery scenario, where the surviving sequence is
the empty sublist. -/
theorem move_preserves_parcel_order_witness :
    List.Sublist (⟨"Alice\x27s House", []⟩ : VillageState).parcels
        ((⟨"Post Office", [⟨"Post Office", "Alice\x27s House"⟩]⟩ :
          VillageState).parcels.map (parcelStep "Post Office" "Alice\x27s House")) ∨
      (⟨"Alice\x27s House", []⟩ : VillageState).parcels =
        (⟨"Post Office", [⟨"Post Office", "Alice\x27s House"⟩]⟩ :
          VillageState).parcels :=
  move_preserves_parcel_order
    ⟨"Post Office", [⟨"Post Office", "Alice\x27s House"⟩]⟩ "Alice\x27s House"
    ⟨"Alice\x27s House", []⟩ (by decide)

/-- C7: a place that never occurs in the edge list is absent from the
adjacency object, and querying its neighbors fails at once with the
`TypeError` that the specification labels `UnknownPlaceError`; conversely
every registered place answers with its neighbor list. -/
theorem neighbors_unregistered_fails (edges : List String) (p : Place)
    (h : p ∉ placesOf edges) :
    neighbors (buildGraph edges) p = .error JsError.typeError := by
  unfold neighbors
  cases hl : lookupG (buildGraph edges) p with
  | none => rfl
  | some ns =>
    exact absurd ((isSome_lookup_buildGraph edges p).mp (by simp [hl])) h

/-- Witness for C7: the graph of the village roads has no entry for an
unknown place. -/
theorem neighbors_unregistered_fails_witness :
    neighbors (buildGraph roads) "Harbor" = .error JsError.typeError :=
  neighbors_unregistered_fails roads "Harbor" (by decide)



section ExceptLemmas

@[simp] lemma ok_bind {ε α β : Type} (a : α) (f : α → Except ε β) :
    (Except.ok a >>= f : Except ε β) = f a := rfl

@[simp] lemma error_bind {ε α β : Type} (e : ε) (f : α → Except ε β) :
    (Except.error e >>= f : Except ε β) = .error e := rfl

lemma scoreE_some (c : Candidate) (r : List Place) (h : c.route = some r) :
    scoreE c = .ok (scoreQ c) := by
  unfold scoreE scoreQ
  rw [h]
  simp

lemma mapM_except_ok {α β : Type} (f : α → Except JsError β) :
    ∀ (xs : List α) (ys : List β), xs.mapM f = .ok ys →
      ys.length = xs.length ∧
      ∀ (i : Nat) (x : α), xs[i]? = some x → ∃ y, ys[i]? = some y ∧ f x = .ok y := by
  intro xs
  induction xs with
  | nil =>
    intro ys h
    simp only [List.mapM_nil, pure] at h
    cases h
    exact ⟨rfl, by intro i x hx; simp at hx⟩
  | cons x xs ih =>
    intro ys h
    rw [List.mapM_cons] at h
    cases hfx : f x with
    | error e => rw [hfx] at h; simp at h
    | ok y =>
      rw [hfx] at h
      simp only [ok_bind] at h
      cases hrest : xs.mapM f with
      | error e => rw [hrest] at h; simp at h
      | ok ys' =>
        rw [hrest] at h
        simp only [ok_bind, pure, Except.pure] at h
        cases h
        obtain ⟨hlen, hidx⟩ := ih ys' hrest
        refine ⟨by simp [hlen], ?_⟩
        intro i z hz
        cases i with
        | zero =>
          simp only [List.getElem?_cons_zero, Option.some.injEq] at hz
          subst hz
          exact ⟨y, by simp, hfx⟩
        | succ j =>
          simp only [List.getElem?_cons_succ] at hz
          obtain ⟨w, hw, hfw⟩ := hidx j z hz
          exact ⟨w, by simpa using hw, hfw⟩

lemma mapM_except_error {α β : Type} (f : α → Except JsError β)
    (herr : ∀ x e, f x = .error e → e = JsError.typeError) :
    ∀ (xs : List α) (e : JsError), xs.mapM f = .error e → e = JsError.typeError := by
  intro xs
  induction xs with
  | nil =>
    intro e h
    simp only [List.mapM_nil, pure, Except.pure] at h
    exact Except.noConfusion h
  | cons x xs ih =>
    intro e h
    rw [List.mapM_cons] at h
    cases hfx : f x with
    | error e' =>
      rw [hfx] at h
      simp only [error_bind, Except.error.injEq] at h
      exact h ▸ herr x e' hfx
    | ok y =>
      rw [hfx] at h
      simp only [ok_bind] at h
      cases hrest : xs.mapM f with
      | error e' =>
        rw [hrest] at h
        simp only [error_bind, Except.error.injEq] at h
        exact h ▸ ih e' hrest
      | ok ys' =>
        rw [hrest] at h
        simp only [ok_bind, pure, Except.pure] at h
        exact Except.noConfusion h

end ExceptLemmas

section ReduceLemmas

lemma reduceGo_spec :
    ∀ (cs : List Candidate) (a : Candidate),
      (∀ c ∈ a :: cs, c.route.isSome) →
      ∃ pre post r, reduceGo a cs = .ok r ∧ a :: cs = pre ++ r :: post ∧
        (∀ c ∈ a :: cs, scoreQ c ≤ scoreQ r) ∧
        ∀ c ∈ post, scoreQ c < scoreQ r := by
  intro cs
  induction cs with
  | nil =>
    intro a _
    exact ⟨[], [], a, rfl, rfl, by simp, by simp⟩
  | cons b rest ih =>
    intro a hroutes
    obtain ⟨ra, hra⟩ := Option.isSome_iff_exists.mp (hroutes a (by simp))
    obtain ⟨rb, hrb⟩ := Option.isSome_iff_exists.mp (hroutes b (by simp))
    have h0 : reduceGo a (b :: rest) = (do
        let sa ← scoreE a
        let sb ← scoreE b
        reduceGo (if sb < sa then a else b) rest) := rfl
    have hstep : reduceGo a (b :: rest) =
        reduceGo (if scoreQ b < scoreQ a then a else b) rest := by
      rw [h0, scoreE_some a ra hra, scoreE_some b rb hrb]
      simp only [ok_bind]
    by_cases hlt : scoreQ b < scoreQ a
    · rw [if_pos hlt] at hstep
      have hsub : ∀ c ∈ a :: rest, c.route.isSome := by
        intro c hc
        rcases List.mem_cons.mp hc with h | h
        · subst h; exact hroutes c (by simp)
        · exact hroutes c (by simp [h])
      obtain ⟨pre, post, r, hred, hsplit, hmax, hpost⟩ := ih a hsub
      cases pre with
      | nil =>
        simp only [List.nil_append, List.cons.injEq] at hsplit
        obtain ⟨har, hrest⟩ := hsplit
        subst har
        refine ⟨[], b :: post, a, by rw [hstep, hred], by simp [hrest], ?_, ?_⟩
        · intro c hc
          rcases List.mem_cons.mp hc with h | h
          · subst h; exact le_refl _
          · rcases List.mem_cons.mp h with h2 | h2
            · subst h2; exact hlt.le
            · exact hmax c (List.mem_cons_of_mem a h2)
        · intro c hc
          rcases List.mem_cons.mp hc with h | h
          · subst h; exact hlt
          · exact hpost c h
      | cons x pre' =>
        simp only [List.cons_append, List.cons.injEq] at hsplit
        obtain ⟨hax, hrest⟩ := hsplit
        subst hax
        refine ⟨a :: b :: pre', post, r, by rw [hstep, hred], by simp [hrest], ?_, hpost⟩
        intro c hc
        rcases List.mem_cons.mp hc with h | h
        · subst h; exact hmax c (by simp)
        · rcases List.mem_cons.mp h with h2 | h2
          · subst h2
            exact hlt.le.trans (hmax a (by simp))
          · exact hmax c (by simp [h2])
    · rw [if_neg hlt] at hstep
      have hsub : ∀ c ∈ b :: rest, c.route.isSome := by
        intro c hc
        rcases List.mem_cons.mp hc with h | h
        · subst h; exact hroutes c (by simp)
        · exact hroutes c (by simp [h])
      obtain ⟨pre, post, r, hred, hsplit, hmax, hpost⟩ := ih b hsub
      refine ⟨a :: pre, post, r, by rw [hstep, hred], by rw [List.cons_append, ← hsplit], ?_, hpost⟩
      intro c hc
      rcases List.mem_cons.mp hc with h | h
      · subst h
        exact (le_of_not_lt hlt).trans (hmax b (by simp))
      · exact hmax c (by simp [h])

lemma scoreE_error (c : Candidate) (e : JsError) (h : scoreE c = .error e) :
    e = JsError.typeError := by
  unfold scoreE at h
  cases hr : c.route with
  | none => rw [hr] at h; cases h; rfl
  | some r => rw [hr] at h; cases h

lemma reduceGo_error :
    ∀ (cs : List Candidate) (a : Candidate) (e : JsError),
      reduceGo a cs = .error e → e = JsError.typeError := by
  intro cs
  induction cs with
  | nil => intro a e h; cases h
  | cons b rest ih =>
    intro a e h
    rw [show reduceGo a (b :: rest) = (do
        let sa ← scoreE a
        let sb ← scoreE b
        reduceGo (if sb < sa then a else b) rest) from rfl] at h
    cases hsa : scoreE a with
    | error e' =>
      rw [hsa] at h
      simp only [error_bind, Except.error.injEq] at h
      exact h ▸ scoreE_error a e' hsa
    | ok sa =>
      rw [hsa] at h
      simp only [ok_bind] at h
      cases hsb : scoreE b with
      | error e' =>
        rw [hsb] at h
        simp only [error_bind, Except.error.injEq] at h
        exact h ▸ scoreE_error b e' hsb
      | ok sb =>
        rw [hsb] at h
        simp only [ok_bind] at h
        exact ih _ e h

end ReduceLemmas

section ErrorTaxonomy

lemma findRouteAux_error (g : Graph) (dst : Place) :
    ∀ (fuel : Nat) (work : List WorkItem) (i : Nat) (e : JsError),
      findRouteAux g dst fuel work i = some (.error e) → e = JsError.typeError := by
  intro fuel
  induction fuel with
  | zero =>
    intro work i e h
    unfold findRouteAux at h
    cases hwi : work[i]? with
    | none => rw [hwi] at h; simp at h
    | some wi => rw [hwi] at h; simp at h
  | succ fuel ih =>
    intro work i e h
    unfold findRouteAux at h
    cases hwi : work[i]? with
    | none => rw [hwi] at h; simp at h
    | some wi =>
      rw [hwi] at h
      dsimp only at h
      cases hl : lookupG g wi.atP with
      | none =>
        rw [hl] at h
        simp only [Option.some.injEq, Except.error.injEq] at h
        exact h.symm
      | some nbrs =>
        rw [hl] at h
        dsimp only at h
        cases hscan : scanNbrs dst wi.route nbrs work with
        | mk found work' =>
          rw [hscan] at h
          cases found with
          | some r => simp at h
          | none => exact ih work' (i + 1) e h

lemma findRoute_error (g : Graph) (src dst : Place) (e : JsError)
    (h : findRoute g src dst = .error e) : e = JsError.typeError := by
  unfold findRoute at h
  cases haux : findRouteAux g dst (fuelBound g) [⟨src, []⟩] 0 with
  | none => rw [haux] at h; cases h
  | some res =>
    rw [haux] at h
    dsimp only at h
    subst h
    exact findRouteAux_error g dst (fuelBound g) [⟨src, []⟩] 0 e haux

lemma except_map_error {α β : Type} (x : Except JsError α) (f : α → β)
    (e : JsError) (h : x.map f = .error e) : x = .error e := by
  cases x with
  | error e' => cases h; rfl
  | ok a => cases h

lemma candidateFor_error (s : VillageState) (p : Parcel) (e : JsError)
    (h : candidateFor s p = .error e) : e = JsError.typeError := by
  unfold candidateFor at h
  by_cases hp : p.place ≠ s.place
  · rw [if_pos hp] at h
    exact findRoute_error _ _ _ _ (except_map_error _ _ _ h)
  · rw [if_neg hp] at h
    exact findRoute_error _ _ _ _ (except_map_error _ _ _ h)

lemma candidatesFor_error (s : VillageState) (e : JsError)
    (h : candidatesFor s = .error e) : e = JsError.typeError :=
  mapM_except_error _ (fun p e' he' => candidateFor_error s p e' he') _ e h

lemma move_error (s : VillageState) (dest : Place) (e : JsError)
    (h : move s dest = .error e) : e = JsError.typeError := by
  unfold move at h
  cases hl : lookupG roadGraph s.place with
  | none =>
    rw [hl] at h
    cases h
    rfl
  | some ns =>
    rw [hl] at h
    dsimp only at h
    by_cases hd : dest ∈ ns
    · rw [if_pos hd] at h; cases h
    · rw [if_neg hd] at h; cases h

lemma moveJ_error (s : VillageState) (dest : Option Place) (e : JsError)
    (h : moveJ s dest = .error e) : e = JsError.typeError := by
  cases dest with
  | some d => exact move_error s d e h
  | none =>
    unfold moveJ at h
    cases hl : lookupG roadGraph s.place with
    | none => rw [hl] at h; cases h; rfl
    | some ns => rw [hl] at h; cases h

end ErrorTaxonomy

/-- C10: the goal-directed strategies are partial at the public interface.
On a state with no parcels and empty route memory, `lazyRobot` reduces an
empty candidate array and throws (the reduce-of-empty-array `TypeError`),
and `goalOrientedRobot` reads the missing first parcel and throws; when
the parcel sequence is non-empty the empty-reduce failure cannot occur;
and the simulator loop `countSteps` checks emptiness before every strategy
call, so it never triggers the empty-reduce failure of a strategy that is
total on non-empty parcel sequences. -/
theorem strategies_partial_empty_parcels :
    (∀ pl : Place, lazyRobot ⟨pl, []⟩ [] = .error JsError.reduceEmpty) ∧
    (∀ pl : Place, goalOrientedRobot ⟨pl, []⟩ [] = .error JsError.typeError) ∧
    (∀ (s : VillageState) (m : List Place), s.parcels ≠ [] →
      lazyRobot s m ≠ .error JsError.reduceEmpty) ∧
    ∀ (M : Type) (fuel : Nat) (s : VillageState)
      (robot : VillageState → M → Except JsError (RobotAction M)) (mem : M)
      (steps : Nat),
      (∀ (s' : VillageState) (m' : M), s'.parcels ≠ [] →
        robot s' m' ≠ .error JsError.reduceEmpty) →
      countSteps fuel s robot mem steps ≠ .error JsError.reduceEmpty := by
  refine ⟨?_, ?_, ?_, ?_⟩
  · intro pl
    rfl
  · intro pl
    rfl
  · intro s m hne h
    unfold lazyRobot at h
    by_cases hm : m.isEmpty
    · rw [if_pos hm] at h
      cases hcs : candidatesFor s with
      | error e =>
        rw [hcs] at h
        simp only [error_bind, Except.error.injEq] at h
        have := candidatesFor_error s e hcs
        rw [h] at this
        cases this
      | ok cs =>
        rw [hcs] at h
        simp only [ok_bind] at h
        cases cs with
        | nil =>
          obtain ⟨hlen, _⟩ := mapM_except_ok (candidateFor s) s.parcels [] hcs
          exact hne (List.length_eq_zero.mp hlen.symm)
        | cons c0 rest =>
          rw [show reduceScored (c0 :: rest) = reduceGo c0 rest from rfl] at h
          cases hred : reduceGo c0 rest with
          | error e =>
            rw [hred] at h
            simp only [error_bind, Except.error.injEq] at h
            have := reduceGo_error rest c0 e hred
            rw [h] at this
            cases this
          | ok c =>
            rw [hred] at h
            simp only [ok_bind] at h
            cases hcr : c.route with
            | none => rw [hcr] at h; cases h
            | some r => rw [hcr] at h; cases h
    · rw [if_neg hm] at h
      cases h
  · intro M fuel
    induction fuel with
    | zero =>
      intro s robot mem steps hrob h
      cases h
    | succ fuel ih =>
      intro s robot mem steps hrob h
      rw [show countSteps (fuel + 1) s robot mem steps =
          (if s.parcels.isEmpty then .ok (some steps)
           else do
             let action ← robot s mem
             let s' ← moveJ s action.direction
             countSteps fuel s' robot action.memory (steps + 1)) from rfl] at h
      by_cases hemp : s.parcels.isEmpty
      · rw [if_pos hemp] at h
        cases h
      · rw [if_neg hemp] at h
        have hne : s.parcels ≠ [] := by
          intro hnil
          rw [hnil] at hemp
          exact hemp rfl
        cases hrobot : robot s mem with
        | error e =>
          rw [hrobot] at h
          simp only [error_bind, Except.error.injEq] at h
          exact hrob s mem hne (h ▸ hrobot)
        | ok action =>
          rw [hrobot] at h
          simp only [ok_bind] at h
          cases hmv : moveJ s action.direction with
          | error e =>
            rw [hmv] at h
            simp only [error_bind, Except.error.injEq] at h
            have := moveJ_error s action.direction e hmv
            rw [h] at this
            cases this
          | ok s' =>
            rw [hmv] at h
            simp only [ok_bind] at h
            exact ih s' robot action.memory (steps + 1) hrob h

/-- Witness for C10: on a one-parcel state the simulator precondition
holds and `lazyRobot` cannot raise the empty-reduce failure. -/
theorem strategies_partial_empty_parcels_witness :
    lazyRobot ⟨"Post Office", [⟨"Marketplace", "Farm"⟩]⟩ ["Marketplace"] ≠
      .error JsError.reduceEmpty :=
  strategies_partial_empty_parcels.2.2.1 ⟨"Post Office", [⟨"Marketplace", "Farm"⟩]⟩
    ["Marketplace"] (by decide)

/-- Counterexample for C2 as stated: from the Post Office, the two pickup
candidates (house of Alice, Marketplace) have routes of length one and tie
on score, yet `lazyRobot` follows the route of the second (latest-indexed)
parcel, not the first: the reduce keeps the right operand on ties. -/
theorem lazyRobot_tie_latest_cex :
    candidatesFor ⟨"Post Office",
        [⟨"Alice\x27s House", "Cabin"⟩, ⟨"Marketplace", "Farm"⟩]⟩ =
      .ok [⟨some ["Alice\x27s House"], true⟩, ⟨some ["Marketplace"], true⟩] ∧
    scoreQ ⟨some ["Alice\x27s House"], true⟩ = scoreQ ⟨some ["Marketplace"], true⟩ ∧
    lazyRobot ⟨"Post Office",
        [⟨"Alice\x27s House", "Cabin"⟩, ⟨"Marketplace", "Farm"⟩]⟩ [] =
      .ok ⟨some "Marketplace", []⟩ := by
  refine ⟨by decide, rfl, ?_⟩
  have hcs : candidatesFor ⟨"Post Office",
      [⟨"Alice\x27s House", "Cabin"⟩, ⟨"Marketplace", "Farm"⟩]⟩ =
      .ok [⟨some ["Alice\x27s House"], true⟩, ⟨some ["Marketplace"], true⟩] := by
    decide
  have h0 : lazyRobot ⟨"Post Office",
      [⟨"Alice\x27s House", "Cabin"⟩, ⟨"Marketplace", "Farm"⟩]⟩ [] = (do
      let cs ← candidatesFor ⟨"Post Office",
        [⟨"Alice\x27s House", "Cabin"⟩, ⟨"Marketplace", "Farm"⟩]⟩
      let c ← reduceScored cs
      match c.route with
      | none => .error JsError.typeError
      | some r => .ok (emit r)) := rfl
  rw [h0, hcs]
  simp only [ok_bind]
  have h1 : reduceScored [(⟨some ["Alice\x27s House"], true⟩ : Candidate),
      ⟨some ["Marketplace"], true⟩] = .ok ⟨some ["Marketplace"], true⟩ := by
    rw [show reduceScored [(⟨some ["Alice\x27s House"], true⟩ : Candidate),
        ⟨some ["Marketplace"], true⟩] = (do
        let sa ← scoreE ⟨some ["Alice\x27s House"], true⟩
        let sb ← scoreE ⟨some ["Marketplace"], true⟩
        reduceGo (if sb < sa then (⟨some ["Alice\x27s House"], true⟩ : Candidate)
          else ⟨some ["Marketplace"], true⟩) []) from rfl]
    rw [scoreE_some ⟨some ["Alice\x27s House"], true⟩ ["Alice\x27s House"] rfl,
      scoreE_some ⟨some ["Marketplace"], true⟩ ["Marketplace"] rfl]
    simp only [ok_bind]
    rw [if_neg]
    · rfl
    · exact lt_irrefl (scoreQ ⟨some ["Marketplace"], true⟩)
  rw [h1]
  rfl

/-- C2 (amended): on a state with a non-empty parcel sequence and empty
route memory, `lazyRobot` computes one candidate per parcel, in parcel
order (pickup leg when the parcel is elsewhere, delivery leg when it is at
the agent location), scores each candidate as
`(isPickup ? 0.5 : 0) - length(route)`, and follows the route of a
candidate of maximal score; when several candidates tie on the maximal
score, the LATEST-indexed parcel of the original sequence wins (every
candidate after the chosen one scores strictly lower), because the reduce
keeps its right operand on ties. -/
theorem lazyRobot_scored_choice (s : VillageState) (cs : List Candidate)
    (hps : s.parcels ≠ []) (hcs : candidatesFor s = .ok cs)
    (hroutes : ∀ c ∈ cs, ∃ rr, c.route = some rr ∧ rr ≠ []) :
    cs.length = s.parcels.length ∧
    (∀ (i : Nat) (p : Parcel), s.parcels[i]? = some p →
      ∃ c, cs[i]? = some c ∧ candidateFor s p = .ok c) ∧
    ∃ pre post chosen rr, cs = pre ++ chosen :: post ∧ chosen.route = some rr ∧
      (∀ c ∈ cs, scoreQ c ≤ scoreQ chosen) ∧
      (∀ c ∈ post, scoreQ c < scoreQ chosen) ∧
      lazyRobot s [] = .ok ⟨rr.head?, rr.drop 1⟩ := by
  obtain ⟨hlen, hidx⟩ := mapM_except_ok (candidateFor s) s.parcels cs hcs
  refine ⟨hlen, hidx, ?_⟩
  cases cs with
  | nil => exact absurd (List.length_eq_zero.mp hlen.symm) hps
  | cons c0 rest =>
    have hsome : ∀ c ∈ c0 :: rest, c.route.isSome := by
      intro c hc
      obtain ⟨rr, hrr, _⟩ := hroutes c hc
      simp [hrr]
    obtain ⟨pre, post, r, hred, hsplit, hmax, hpost⟩ := reduceGo_spec rest c0 hsome
    have hrcs : r ∈ c0 :: rest := by
      rw [hsplit]
      exact List.mem_append_right pre (List.mem_cons_self r post)
    obtain ⟨rr, hrr, _⟩ := hroutes r hrcs
    refine ⟨pre, post, r, rr, hsplit, hrr, hmax, hpost, ?_⟩
    have h0 : lazyRobot s [] = (do
        let cs ← candidatesFor s
        let c ← reduceScored cs
        match c.route with
        | none => .error JsError.typeError
        | some rq => .ok (emit rq)) := rfl
    rw [h0, hcs]
    simp only [ok_bind]
    rw [show reduceScored (c0 :: rest) = reduceGo c0 rest from rfl, hred]
    simp only [ok_bind]
    rw [hrr]
    rfl

/-- Witness for C2 (amended): the theorem applied to the two-parcel tie
state; the selected candidate is the one of the Marketplace parcel. -/
theorem lazyRobot_scored_choice_witness :
    ([(⟨some ["Alice\x27s House"], true⟩ : Candidate),
        ⟨some ["Marketplace"], true⟩].length =
      (⟨"Post Office", [⟨"Alice\x27s House", "Cabin"⟩, ⟨"Marketplace", "Farm"⟩]⟩ :
        VillageState).parcels.length) ∧
    (∀ (i : Nat) (p : Parcel),
      (⟨"Post Office", [⟨"Alice\x27s House", "Cabin"⟩, ⟨"Marketplace", "Farm"⟩]⟩ :
        VillageState).parcels[i]? = some p →
      ∃ c, ([(⟨some ["Alice\x27s House"], true⟩ : Candidate),
          ⟨some ["Marketplace"], true⟩])[i]? = some c ∧
        candidateFor ⟨"Post Office",
          [⟨"Alice\x27s House", "Cabin"⟩, ⟨"Marketplace", "Farm"⟩]⟩ p = .ok c) ∧
    ∃ pre post chosen rr,
      ([(⟨some ["Alice\x27s House"], true⟩ : Candidate),
          ⟨some ["Marketplace"], true⟩] : List Candidate) = pre ++ chosen :: post ∧
      chosen.route = some rr ∧
      (∀ c ∈ [(⟨some ["Alice\x27s House"], true⟩ : Candidate),
          ⟨some ["Marketplace"], true⟩], scoreQ c ≤ scoreQ chosen) ∧
      (∀ c ∈ post, scoreQ c < scoreQ chosen) ∧
      lazyRobot ⟨"Post Office",
          [⟨"Alice\x27s House", "Cabin"⟩, ⟨"Marketplace", "Farm"⟩]⟩ [] =
        .ok ⟨rr.head?, rr.drop 1⟩ :=
  lazyRobot_scored_choice
    ⟨"Post Office", [⟨"Alice\x27s House", "Cabin"⟩, ⟨"Marketplace", "Farm"⟩]⟩
    [⟨some ["Alice\x27s House"], true⟩, ⟨some ["Marketplace"], true⟩]
    (by decide) (by decide)
    (by
      intro c hc
      rcases List.mem_cons.mp hc with rfl | h
      · exact ⟨["Alice\x27s House"], rfl, by decide⟩
      · rcases List.mem_cons.mp h with rfl | h2
        · exact ⟨["Marketplace"], rfl, by decide⟩
        · cases h2)

section ScanLemmas

lemma atPs_append (a b : List WorkItem) : atPs (a ++ b) = atPs a ++ atPs b := by
  simp [atPs]

lemma any_atP (work : List WorkItem) (p : Place) :
    (work.any fun w => w.atP = p) = true ↔ p ∈ atPs work := by
  simp [atPs, List.any_eq_true, List.mem_map]

lemma scanNbrs_shape (dst : Place) (route : List Place) :
    ∀ (nbrs : List Place) (work : List WorkItem),
      ∃ newItems, (scanNbrs dst route nbrs work).2 = work ++ newItems ∧
        ∀ it ∈ newItems, it.route = route ++ [it.atP] ∧ it.atP ∈ nbrs ∧
          it.atP ≠ dst ∧ it.atP ∉ atPs work := by
  intro nbrs
  induction nbrs with
  | nil =>
    intro work
    exact ⟨[], by simp [scanNbrs], by simp⟩
  | cons p ps ih =>
    intro work
    by_cases hp : p = dst
    · refine ⟨[], ?_, by simp⟩
      simp [scanNbrs, hp]
    · by_cases hseen : (work.any fun w => w.atP = p) = true
      · obtain ⟨newItems, h2, hprops⟩ := ih work
        refine ⟨newItems, ?_, ?_⟩
        · rw [show scanNbrs dst route (p :: ps) work = scanNbrs dst route ps work from by
            simp [scanNbrs, hp, hseen]]
          exact h2
        · intro it hit
          obtain ⟨ha, hb, hc, hd⟩ := hprops it hit
          exact ⟨ha, List.mem_cons_of_mem p hb, hc, hd⟩
      · obtain ⟨newItems, h2, hprops⟩ := ih (work ++ [⟨p, route ++ [p]⟩])
        refine ⟨⟨p, route ++ [p]⟩ :: newItems, ?_, ?_⟩
        · rw [show scanNbrs dst route (p :: ps) work =
              scanNbrs dst route ps (work ++ [⟨p, route ++ [p]⟩]) from by
            simp [scanNbrs, hp, hseen]]
          rw [h2, List.append_assoc]
          rfl
        · intro it hit
          rcases List.mem_cons.mp hit with rfl | hmem
          · refine ⟨rfl, by simp, hp, ?_⟩
            intro hin
            exact hseen ((any_atP work p).mpr hin)
          · obtain ⟨ha, hb, hc, hd⟩ := hprops it hmem
            refine ⟨ha, List.mem_cons_of_mem p hb, hc, ?_⟩
            intro hin
            exact hd (by simp [atPs_append, hin])

lemma scanNbrs_mono (dst : Place) (route : List Place) (nbrs : List Place)
    (work : List WorkItem) :
    ∀ p ∈ atPs work, p ∈ atPs (scanNbrs dst route nbrs work).2 := by
  obtain ⟨newItems, h2, _⟩ := scanNbrs_shape dst route nbrs work
  intro p hp
  rw [h2, atPs_append]
  exact List.mem_append_left _ hp

lemma scanNbrs_found_none (dst : Place) (route : List Place) :
    ∀ (nbrs : List Place) (work : List WorkItem),
      (scanNbrs dst route nbrs work).1 = none → dst ∉ nbrs := by
  intro nbrs
  induction nbrs with
  | nil => intro work _; simp
  | cons p ps ih =>
    intro work h
    by_cases hp : p = dst
    · rw [show scanNbrs dst route (p :: ps) work = (some (route ++ [p]), work) from by
        simp [scanNbrs, hp]] at h
      cases h
    · intro hmem
      rcases List.mem_cons.mp hmem with heq | hmem2
      · exact hp heq.symm
      · by_cases hseen : (work.any fun w => w.atP = p) = true
        · rw [show scanNbrs dst route (p :: ps) work = scanNbrs dst route ps work from by
            simp [scanNbrs, hp, hseen]] at h
          exact ih work h hmem2
        · rw [show scanNbrs dst route (p :: ps) work =
              scanNbrs dst route ps (work ++ [⟨p, route ++ [p]⟩]) from by
            simp [scanNbrs, hp, hseen]] at h
          exact ih _ h hmem2

lemma scanNbrs_found_some (dst : Place) (route : List Place) :
    ∀ (nbrs : List Place) (work : List WorkItem) (r : List Place),
      (scanNbrs dst route nbrs work).1 = some r → r = route ++ [dst] ∧ dst ∈ nbrs := by
  intro nbrs
  induction nbrs with
  | nil => intro work r h; simp [scanNbrs] at h
  | cons p ps ih =>
    intro work r h
    by_cases hp : p = dst
    · rw [show scanNbrs dst route (p :: ps) work = (some (route ++ [p]), work) from by
        simp [scanNbrs, hp]] at h
      simp only [Option.some.injEq] at h
      subst h
      exact ⟨by rw [hp], by simp [hp]⟩
    · by_cases hseen : (work.any fun w => w.atP = p) = true
      · rw [show scanNbrs dst route (p :: ps) work = scanNbrs dst route ps work from by
          simp [scanNbrs, hp, hseen]] at h
        obtain ⟨h1, h2⟩ := ih work r h
        exact ⟨h1, List.mem_cons_of_mem p h2⟩
      · rw [show scanNbrs dst route (p :: ps) work =
            scanNbrs dst route ps (work ++ [⟨p, route ++ [p]⟩]) from by
          simp [scanNbrs, hp, hseen]] at h
        obtain ⟨h1, h2⟩ := ih _ r h
        exact ⟨h1, List.mem_cons_of_mem p h2⟩

lemma scanNbrs_cover (dst : Place) (route : List Place) :
    ∀ (nbrs : List Place) (work : List WorkItem),
      (scanNbrs dst route nbrs work).1 = none →
      ∀ p ∈ nbrs, p ∈ atPs (scanNbrs dst route nbrs work).2 := by
  intro nbrs
  induction nbrs with
  | nil => intro work _ p hp; simp at hp
  | cons p ps ih =>
    intro work h q hq
    by_cases hp : p = dst
    · rw [show scanNbrs dst route (p :: ps) work = (some (route ++ [p]), work) from by
        simp [scanNbrs, hp]] at h
      cases h
    · by_cases hseen : (work.any fun w => w.atP = p) = true
      · rw [show scanNbrs dst route (p :: ps) work = scanNbrs dst route ps work from by
          simp [scanNbrs, hp, hseen]] at h ⊢
        rcases List.mem_cons.mp hq with rfl | hq2
        · exact scanNbrs_mono dst route ps work q ((any_atP work q).mp hseen)
        · exact ih work h q hq2
      · rw [show scanNbrs dst route (p :: ps) work =
            scanNbrs dst route ps (work ++ [⟨p, route ++ [p]⟩]) from by
          simp [scanNbrs, hp, hseen]] at h ⊢
        rcases List.mem_cons.mp hq with rfl | hq2
        · exact scanNbrs_mono dst route ps _ q (by simp [atPs_append, atPs])
        · exact ih _ h q hq2

lemma scanNbrs_nodup (dst : Place) (route : List Place) :
    ∀ (nbrs : List Place) (work : List WorkItem),
      (atPs work).Nodup → (atPs (scanNbrs dst route nbrs work).2).Nodup := by
  intro nbrs
  induction nbrs with
  | nil => intro work h; simpa [scanNbrs] using h
  | cons p ps ih =>
    intro work h
    by_cases hp : p = dst
    · rw [show scanNbrs dst route (p :: ps) work = (some (route ++ [p]), work) from by
        simp [scanNbrs, hp]]
      exact h
    · by_cases hseen : (work.any fun w => w.atP = p) = true
      · rw [show scanNbrs dst route (p :: ps) work = scanNbrs dst route ps work from by
          simp [scanNbrs, hp, hseen]]
        exact ih work h
      · rw [show scanNbrs dst route (p :: ps) work =
            scanNbrs dst route ps (work ++ [⟨p, route ++ [p]⟩]) from by
          simp [scanNbrs, hp, hseen]]
        refine ih _ ?_
        rw [atPs_append]
        refine List.Nodup.append h (by simp [atPs]) ?_
        intro q hq hq2
        simp only [atPs, List.map_cons, List.map_nil, List.mem_singleton] at hq2
        subst hq2
        exact hseen ((any_atP work q).mpr hq)

end ScanLemmas

section RouteLemmas

lemma isRouteB_append_one (g : Graph) :
    ∀ (xs : List Place) (src m y : Place),
      isRouteB g src xs m = true → isNbr g m y = true →
      isRouteB g src (xs ++ [y]) y = true := by
  intro xs
  induction xs with
  | nil =>
    intro src m y h1 h2
    simp only [isRouteB, decide_eq_true_eq] at h1
    subst h1
    simp [isRouteB, h2]
  | cons x xs ih =>
    intro src m y h1 h2
    simp only [isRouteB, Bool.and_eq_true] at h1
    obtain ⟨ha, hb⟩ := h1
    simp only [List.cons_append, isRouteB, Bool.and_eq_true]
    exact ⟨ha, ih x m y hb h2⟩

lemma isRouteB_decompose (g : Graph) :
    ∀ (r : List Place) (src u : Place), isRouteB g src r u = true → r ≠ [] →
      ∃ xs m, r = xs ++ [u] ∧ xs.length + 1 = r.length ∧
        isRouteB g src xs m = true ∧ isNbr g m u = true := by
  intro r
  induction r with
  | nil => intro src u _ hne; exact absurd rfl hne
  | cons x rest ih =>
    intro src u h _
    simp only [isRouteB, Bool.and_eq_true] at h
    obtain ⟨hx, hr⟩ := h
    cases rest with
    | nil =>
      simp only [isRouteB, decide_eq_true_eq] at hr
      subst hr
      exact ⟨[], src, rfl, rfl, by simp [isRouteB], hx⟩
    | cons x2 rest2 =>
      obtain ⟨xs, m, heq, hlen, hroute, hnbr⟩ := ih x u hr (by simp)
      refine ⟨x :: xs, m, by rw [List.cons_append, ← heq], by simp [← hlen], ?_, hnbr⟩
      simp only [isRouteB, Bool.and_eq_true]
      exact ⟨hx, hroute⟩

lemma mem_nbrUniverse_of_lookup (g : Graph) :
    ∀ (a : Place) (ns : List Place), lookupG g a = some ns →
      ∀ p ∈ ns, p ∈ nbrUniverse g := by
  induction g with
  | nil => intro a ns h; cases h
  | cons kv rest ih =>
    obtain ⟨q, ms⟩ := kv
    intro a ns h p hp
    simp only [nbrUniverse, List.map_cons, List.flatten_cons, List.mem_append]
    by_cases hq : q = a
    · rw [show lookupG ((q, ms) :: rest) a = some ms from by simp [lookupG, hq]] at h
      cases h
      exact Or.inl hp
    · rw [show lookupG ((q, ms) :: rest) a = lookupG rest a from by simp [lookupG, hq]] at h
      exact Or.inr (ih a ns h p hp)

lemma mem_nbrUniverse_addEdge (g : Graph) (a b p : Place) :
    p ∈ nbrUniverse (addEdge g a b) → p = b ∨ p ∈ nbrUniverse g := by
  induction g with
  | nil =>
    intro h
    simp only [addEdge, nbrUniverse, List.map_cons, List.map_nil, List.flatten_cons,
      List.flatten_nil, List.append_nil] at h
    rcases List.mem_singleton.mp h with rfl
    exact Or.inl rfl
  | cons kv rest ih =>
    obtain ⟨q, ms⟩ := kv
    intro h
    by_cases hq : q = a
    · rw [show addEdge ((q, ms) :: rest) a b = (q, ms ++ [b]) :: rest from by
        simp [addEdge, hq]] at h
      simp only [nbrUniverse, List.map_cons, List.flatten_cons, List.mem_append,
        List.mem_singleton] at h ⊢
      rcases h with (h | h) | h
      · exact Or.inr (Or.inl h)
      · exact Or.inl h
      · exact Or.inr (Or.inr h)
    · rw [show addEdge ((q, ms) :: rest) a b = (q, ms) :: addEdge rest a b from by
        simp [addEdge, hq]] at h
      simp only [nbrUniverse, List.map_cons, List.flatten_cons, List.mem_append] at h ⊢
      rcases h with h | h
      · exact Or.inr (Or.inl h)
      · rcases ih h with h2 | h2
        · exact Or.inl h2
        · exact Or.inr (Or.inr h2)

lemma buildGraph_closed_foldl (es : List String) :
    ∀ (g : Graph),
      (∀ p ∈ nbrUniverse g, (lookupG g p).isSome) →
      ∀ p ∈ nbrUniverse (es.foldl (fun g e =>
          let ft := parseEdge e
          addEdge (addEdge g ft.1 ft.2) ft.2 ft.1) g),
        (lookupG (es.foldl (fun g e =>
          let ft := parseEdge e
          addEdge (addEdge g ft.1 ft.2) ft.2 ft.1) g) p).isSome := by
  induction es with
  | nil => intro g hg; exact hg
  | cons e rest ih =>
    intro g hg
    rw [List.foldl_cons]
    refine ih _ ?_
    intro p hp
    rcases mem_nbrUniverse_addEdge _ _ _ _ hp with rfl | hp2
    · rw [isSome_lookup_addEdge]
      right
      rw [isSome_lookup_addEdge]
      left
      rfl
    · rcases mem_nbrUniverse_addEdge _ _ _ _ hp2 with rfl | hp3
      · rw [isSome_lookup_addEdge]
        left
        rfl
      · rw [isSome_lookup_addEdge, isSome_lookup_addEdge]
        right
        right
        exact hg p hp3

lemma buildGraph_closed (edges : List String) :
    ∀ p ∈ nbrUniverse (buildGraph edges),
      ∃ ns, lookupG (buildGraph edges) p = some ns := by
  intro p hp
  have := buildGraph_closed_foldl edges [] (by simp [nbrUniverse]) p hp
  exact Option.isSome_iff_exists.mp this

end RouteLemmas

section InvLemmas

lemma isNbr_of_lookup (g : Graph) (a b : Place) (ns : List Place)
    (h : lookupG g a = some ns) (hb : b ∈ ns) : isNbr g a b = true := by
  unfold isNbr
  rw [h]
  simpa using hb

lemma isNbr_lookup (g : Graph) (a b : Place) (h : isNbr g a b = true) :
    ∃ ns, lookupG g a = some ns ∧ b ∈ ns := by
  unfold isNbr at h
  cases hl : lookupG g a with
  | none => rw [hl] at h; cases h
  | some ns =>
    rw [hl] at h
    exact ⟨ns, rfl, by simpa using h⟩

lemma pairwise_of_const_len (l : List WorkItem) (d : Nat)
    (h : ∀ x ∈ l, x.route.length = d) :
    l.Pairwise (fun a b => a.route.length ≤ b.route.length) := by
  induction l with
  | nil => exact List.Pairwise.nil
  | cons x xs ih =>
    refine List.Pairwise.cons ?_ (ih fun y hy => h y (List.mem_cons_of_mem x hy))
    intro y hy
    rw [h x (by simp), h y (List.mem_cons_of_mem x hy)]

lemma inv_init (g : Graph) (src dst : Place) (hne : src ≠ dst)
    (hsrcreg : ∃ ns, lookupG g src = some ns) :
    Inv g src dst [⟨src, []⟩] 0 := by
  refine ⟨?_, ?_, ?_, ?_, ?_, ?_, ?_, ?_, ?_, ?_, ?_⟩
  · simp
  · simp [atPs]
  · simp [atPs]
    exact Ne.symm hne
  · simp [atPs]
  · intro w hw
    rcases List.mem_singleton.mp hw with rfl
    exact hsrcreg
  · intro w hw
    rcases List.mem_singleton.mp hw with rfl
    simp [isRouteB]
  · intro w hw r _
    rcases List.mem_singleton.mp hw with rfl
    simp
  · simp
  · intro w hw wi hwi
    rcases List.mem_singleton.mp hw with rfl
    simp
  · intro j hj
    omega
  · intro wi hwi u r hr hlen
    rw [show ([⟨src, []⟩] : List WorkItem)[0]? = some ⟨src, []⟩ from rfl] at hwi
    cases hwi
    simp only [List.length_nil, Nat.le_zero, List.length_eq_zero] at hlen
    subst hlen
    simp only [isRouteB, decide_eq_true_eq] at hr
    subst hr
    simp [atPs]

lemma inv_step (g : Graph) (src dst : Place)
    (hclosed : ∀ p ∈ nbrUniverse g, ∃ ns, lookupG g p = some ns)
    (work : List WorkItem) (i : Nat) (inv : Inv g src dst work i)
    (wi : WorkItem) (hwi : work[i]? = some wi)
    (nbrs : List Place) (hnbrs : lookupG g wi.atP = some nbrs)
    (work' : List WorkItem) (hscan : scanNbrs dst wi.route nbrs work = (none, work')) :
    Inv g src dst work' (i + 1) := by
  have hfst : (scanNbrs dst wi.route nbrs work).1 = none := by rw [hscan]
  have hsnd : (scanNbrs dst wi.route nbrs work).2 = work' := by rw [hscan]
  obtain ⟨newItems, hw2, hprops⟩ := scanNbrs_shape dst wi.route nbrs work
  rw [hsnd] at hw2
  have hwimem : wi ∈ work := List.getElem?_mem hwi
  have hi : i < work.length := by
    by_contra hcon
    rw [List.getElem?_eq_none (Nat.le_of_not_lt hcon)] at hwi
    cases hwi
  have hdnbrs : dst ∉ nbrs := scanNbrs_found_none dst wi.route nbrs work hfst
  have hcov : ∀ p ∈ nbrs, p ∈ atPs work' := by
    intro p hp
    have h2 := scanNbrs_cover dst wi.route nbrs work hfst p hp
    rwa [hsnd] at h2
  have hmemw' : ∀ w ∈ work', w ∈ work ∨ w ∈ newItems := by
    intro w hw
    rw [hw2] at hw
    exact List.mem_append.mp hw
  have hnewlen : ∀ it ∈ newItems, it.route.length = wi.route.length + 1 := by
    intro it hit
    rw [(hprops it hit).1]
    simp
  have hnewvalid : ∀ it ∈ newItems, isRouteB g src it.route it.atP = true := by
    intro it hit
    obtain ⟨hr, hmem, _, _⟩ := hprops it hit
    rw [hr]
    exact isRouteB_append_one g wi.route src wi.atP it.atP (inv.hroutes wi hwimem)
      (isNbr_of_lookup g wi.atP it.atP nbrs hnbrs hmem)
  have hnewmin : ∀ it ∈ newItems, ∀ r, isRouteB g src r it.atP = true →
      it.route.length ≤ r.length := by
    intro it hit r hr
    obtain ⟨_, _, _, hnotin⟩ := hprops it hit
    by_contra hcon
    have hle : r.length ≤ wi.route.length := by
      rw [hnewlen it hit] at hcon
      omega
    exact hnotin (inv.hcover wi hwi it.atP r hr hle)
  have hwork'j : ∀ j, j ≤ i → work'[j]? = work[j]? := by
    intro j hj
    rw [hw2]
    exact List.getElem?_append_left (lt_of_le_of_lt hj hi)
  have hsubAt : ∀ p ∈ atPs work, p ∈ atPs work' := by
    intro p hp
    rw [hw2, atPs_append]
    exact List.mem_append_left _ hp
  have hproc' : ∀ j, j < i + 1 → ∀ wj, work'[j]? = some wj →
      ∃ ns2, lookupG g wj.atP = some ns2 ∧ ∀ p ∈ ns2, p ≠ dst ∧ p ∈ atPs work' := by
    intro j hj wj hwj
    rw [hwork'j j (Nat.lt_succ_iff.mp hj)] at hwj
    by_cases hji : j < i
    · obtain ⟨ns2, hns2, hps⟩ := inv.hprocessed j hji wj hwj
      exact ⟨ns2, hns2, fun p hp => ⟨(hps p hp).1, hsubAt p (hps p hp).2⟩⟩
    · have hj_eq : j = i := by omega
      subst hj_eq
      rw [hwi] at hwj
      cases hwj
      refine ⟨nbrs, hnbrs, fun p hp => ⟨?_, hcov p hp⟩⟩
      intro hpd
      exact hdnbrs (hpd ▸ hp)
  have hnext : ∀ wi', work'[i + 1]? = some wi' →
      wi.route.length ≤ wi'.route.length ∧
        wi'.route.length ≤ wi.route.length + 1 := by
    intro wi' hwi'
    by_cases hlt : i + 1 < work.length
    · rw [hw2, List.getElem?_append_left hlt] at hwi'
      have hmem' : wi' ∈ work := List.getElem?_mem hwi'
      constructor
      · have h2 := hwi
        rw [List.getElem?_eq_getElem hi] at h2
        have e1 := Option.some.inj h2
        have h3 := hwi'
        rw [List.getElem?_eq_getElem hlt] at h3
        have e2 := Option.some.inj h3
        have hp := List.pairwise_iff_getElem.mp inv.hmono i (i + 1) hi hlt
          (Nat.lt_succ_self i)
        rw [e1, e2] at hp
        exact hp
      · exact inv.hbound wi' hmem' wi hwi
    · rw [hw2, List.getElem?_append_right (Nat.le_of_not_lt hlt)] at hwi'
      have hmem' : wi' ∈ newItems := List.getElem?_mem hwi'
      rw [hnewlen wi' hmem']
      omega
  refine ⟨?_, ?_, ?_, ?_, ?_, ?_, ?_, ?_, ?_, hproc', ?_⟩
  · rw [hw2, List.length_append]
    omega
  · exact hsubAt src inv.hsrc
  · intro h
    rw [hw2, atPs_append] at h
    rcases List.mem_append.mp h with h2 | h2
    · exact inv.hdst h2
    · obtain ⟨it, hit, hat⟩ := List.mem_map.mp h2
      exact (hprops it hit).2.2.1 hat
  · have h2 := scanNbrs_nodup dst wi.route nbrs work inv.hnodup
    rwa [hsnd] at h2
  · intro w hw
    rcases hmemw' w hw with h2 | h2
    · exact inv.hreg w h2
    · exact hclosed w.atP
        (mem_nbrUniverse_of_lookup g wi.atP nbrs hnbrs w.atP (hprops w h2).2.1)
  · intro w hw
    rcases hmemw' w hw with h2 | h2
    · exact inv.hroutes w h2
    · exact hnewvalid w h2
  · intro w hw r hr
    rcases hmemw' w hw with h2 | h2
    · exact inv.hmin w h2 r hr
    · exact hnewmin w h2 r hr
  · rw [hw2]
    refine List.pairwise_append.mpr ⟨inv.hmono,
      pairwise_of_const_len newItems (wi.route.length + 1) hnewlen, ?_⟩
    intro a ha b hb
    rw [hnewlen b hb]
    exact Nat.le_of_lt_succ (Nat.lt_succ_of_le (inv.hbound a ha wi hwi))
  · intro w hw wi' hwi'
    obtain ⟨hlow, _⟩ := hnext wi' hwi'
    rcases hmemw' w hw with h2 | h2
    · have := inv.hbound w h2 wi hwi
      omega
    · rw [hnewlen w h2]
      omega
  · intro wi' hwi' u r hr hlen
    obtain ⟨hlow, hhigh⟩ := hnext wi' hwi'
    by_cases hcase : r.length ≤ wi.route.length
    · exact hsubAt u (inv.hcover wi hwi u r hr hcase)
    · have hrlen : r.length = wi.route.length + 1 := by omega
      have hrne : r ≠ [] := by
        intro h2
        rw [h2] at hrlen
        simp at hrlen
      obtain ⟨xs, m, hxeq, hxlen, hxroute, hxnbr⟩ := isRouteB_decompose g r src u hr hrne
      have hxslen : xs.length = wi.route.length := by omega
      have hmmem : m ∈ atPs work := inv.hcover wi hwi m xs hxroute (by omega)
      obtain ⟨wj, hwjmem, hwjat⟩ := List.mem_map.mp hmmem
      obtain ⟨j, hjw⟩ := List.getElem?_of_mem hwjmem
      have hjlt : j < work.length := by
        by_contra hcon
        rw [List.getElem?_eq_none (Nat.le_of_not_lt hcon)] at hjw
        cases hjw
      have hwjlen : wj.route.length ≤ wi.route.length := by
        have h2 := inv.hmin wj hwjmem xs (by rw [hwjat]; exact hxroute)
        omega
      have hji : j < i + 1 := by
        by_contra hcon
        have hii : i + 1 ≤ j := Nat.le_of_not_lt hcon
        have hi1 : i + 1 < work.length := lt_of_le_of_lt hii hjlt
        have hwi'len : wi'.route.length = wi.route.length + 1 := by omega
        have hwi'w : work[i + 1]? = some wi' := by
          have h2 := hwi'
          rw [hw2, List.getElem?_append_left hi1] at h2
          exact h2
        have h2 := hwi'w
        rw [List.getElem?_eq_getElem hi1] at h2
        have egww := Option.some.inj h2
        have h3 := hjw
        rw [List.getElem?_eq_getElem hjlt] at h3
        have egj := Option.some.inj h3
        rcases hii.lt_or_eq with hlt2 | heq2
        · have hp := List.pairwise_iff_getElem.mp inv.hmono (i + 1) j hi1 hjlt hlt2
          rw [egww, egj] at hp
          omega
        · have h3 : work[j]? = some wi' := by rw [← heq2]; exact hwi'w
          rw [hjw] at h3
          have h4 : wj = wi' := Option.some.inj h3
          rw [h4] at hwjlen
          omega
      obtain ⟨ns2, hns2, hps2⟩ := hproc' j hji wj
        (by rw [hwork'j j (Nat.lt_succ_iff.mp hji)]; exact hjw)
      obtain ⟨ns3, hns3, humem⟩ := isNbr_lookup g m u hxnbr
      have hnseq : ns2 = ns3 := by
        rw [hwjat] at hns2
        rw [hns2] at hns3
        exact Option.some.inj hns3
      exact (hps2 u (hnseq ▸ humem)).2

end InvLemmas

section BfsSound

lemma findRouteAux_none_eq (g : Graph) (dst : Place) (fuel : Nat)
    (work : List WorkItem) (i : Nat) (h : work[i]? = none) :
    findRouteAux g dst fuel work i = some (.ok none) := by
  unfold findRouteAux
  rw [h]

lemma findRouteAux_zero_eq (g : Graph) (dst : Place) (work : List WorkItem)
    (i : Nat) (wi : WorkItem) (h : work[i]? = some wi) :
    findRouteAux g dst 0 work i = none := by
  unfold findRouteAux
  rw [h]

lemma findRouteAux_step_err (g : Graph) (dst : Place) (fuel : Nat)
    (work : List WorkItem) (i : Nat) (wi : WorkItem) (h : work[i]? = some wi)
    (hl : lookupG g wi.atP = none) :
    findRouteAux g dst (fuel + 1) work i = some (.error JsError.typeError) := by
  unfold findRouteAux
  rw [h]
  dsimp only
  rw [hl]

lemma findRouteAux_step_found (g : Graph) (dst : Place) (fuel : Nat)
    (work : List WorkItem) (i : Nat) (wi : WorkItem) (nbrs : List Place)
    (r : List Place) (work2 : List WorkItem) (h : work[i]? = some wi)
    (hl : lookupG g wi.atP = some nbrs)
    (hscan : scanNbrs dst wi.route nbrs work = (some r, work2)) :
    findRouteAux g dst (fuel + 1) work i = some (.ok (some r)) := by
  unfold findRouteAux
  rw [h]
  dsimp only
  rw [hl]
  dsimp only
  rw [hscan]

lemma findRouteAux_step_cont (g : Graph) (dst : Place) (fuel : Nat)
    (work : List WorkItem) (i : Nat) (wi : WorkItem) (nbrs : List Place)
    (work2 : List WorkItem) (h : work[i]? = some wi)
    (hl : lookupG g wi.atP = some nbrs)
    (hscan : scanNbrs dst wi.route nbrs work = (none, work2)) :
    findRouteAux g dst (fuel + 1) work i = findRouteAux g dst fuel work2 (i + 1) := by
  conv_lhs => unfold findRouteAux
  rw [h]
  dsimp only
  rw [hl]
  dsimp only
  rw [hscan]

lemma inv_exhausted (g : Graph) (src dst : Place) (work : List WorkItem) (i : Nat)
    (inv : Inv g src dst work i) (hnone : work[i]? = none) :
    ∀ r, isRouteB g src r dst = false := by
  have hi : work.length ≤ i := List.getElem?_eq_none_iff.mp hnone
  have hsrcne : src ≠ dst := by
    intro h
    exact inv.hdst (h ▸ inv.hsrc)
  have hreach : ∀ (n : Nat) (r : List Place) (u : Place), r.length = n →
      isRouteB g src r u = true → u ∈ atPs work ∧ u ≠ dst := by
    intro n
    induction n using Nat.strong_induction_on with
    | _ n ih =>
      intro r u hlen hr
      by_cases hr0 : r = []
      · subst hr0
        simp only [isRouteB, decide_eq_true_eq] at hr
        subst hr
        exact ⟨inv.hsrc, hsrcne⟩
      · obtain ⟨xs, m, hxeq, hxlen, hxroute, hxnbr⟩ := isRouteB_decompose g r src u hr hr0
        have hxslt : xs.length < n := by omega
        obtain ⟨hm, _⟩ := ih xs.length hxslt xs m rfl hxroute
        obtain ⟨wj, hwjmem, hwjat⟩ := List.mem_map.mp hm
        obtain ⟨j, hjw⟩ := List.getElem?_of_mem hwjmem
        have hjlt : j < work.length := by
          by_contra hcon
          rw [List.getElem?_eq_none (Nat.le_of_not_lt hcon)] at hjw
          cases hjw
        obtain ⟨ns2, hns2, hps2⟩ := inv.hprocessed j (lt_of_lt_of_le hjlt hi) wj hjw
        obtain ⟨ns3, hns3, humem⟩ := isNbr_lookup g m u hxnbr
        have hnseq : ns2 = ns3 := by
          rw [hwjat] at hns2
          rw [hns2] at hns3
          exact Option.some.inj hns3
        exact ⟨(hps2 u (hnseq ▸ humem)).2, (hps2 u (hnseq ▸ humem)).1⟩
  intro r
  cases hb : isRouteB g src r dst with
  | false => rfl
  | true => exact absurd rfl (hreach r.length r dst rfl hb).2

lemma bfs_sound (g : Graph) (src dst : Place)
    (hclosed : ∀ p ∈ nbrUniverse g, ∃ ns, lookupG g p = some ns) :
    ∀ (fuel : Nat) (work : List WorkItem) (i : Nat), Inv g src dst work i →
      (∀ e, findRouteAux g dst fuel work i ≠ some (.error e)) ∧
      (findRouteAux g dst fuel work i = some (.ok none) →
        ∀ r, isRouteB g src r dst = false) ∧
      (∀ r, findRouteAux g dst fuel work i = some (.ok (some r)) →
        isRouteB g src r dst = true ∧
        ∀ r2, isRouteB g src r2 dst = true → r.length ≤ r2.length) := by
  intro fuel
  induction fuel with
  | zero =>
    intro work i inv
    cases hwi : work[i]? with
    | none =>
      have he := findRouteAux_none_eq g dst 0 work i hwi
      refine ⟨?_, ?_, ?_⟩
      · intro e h
        rw [he] at h
        simp at h
      · intro _
        exact inv_exhausted g src dst work i inv hwi
      · intro r h
        rw [he] at h
        simp at h
    | some wi =>
      have he := findRouteAux_zero_eq g dst work i wi hwi
      refine ⟨?_, ?_, ?_⟩
      · intro e h
        rw [he] at h
        cases h
      · intro h
        rw [he] at h
        cases h
      · intro r h
        rw [he] at h
        cases h
  | succ fuel ih =>
    intro work i inv
    cases hwi : work[i]? with
    | none =>
      have he := findRouteAux_none_eq g dst (fuel + 1) work i hwi
      refine ⟨?_, ?_, ?_⟩
      · intro e h
        rw [he] at h
        simp at h
      · intro _
        exact inv_exhausted g src dst work i inv hwi
      · intro r h
        rw [he] at h
        simp at h
    | some wi =>
      obtain ⟨nbrs, hnbrs⟩ := inv.hreg wi (List.getElem?_mem hwi)
      cases hscan : scanNbrs dst wi.route nbrs work with
      | mk found work2 =>
        cases found with
        | some r0 =>
          have he := findRouteAux_step_found g dst fuel work i wi nbrs r0 work2
            hwi hnbrs hscan
          obtain ⟨hr0eq, hdmem⟩ := scanNbrs_found_some dst wi.route nbrs work r0
            (by rw [hscan])
          refine ⟨?_, ?_, ?_⟩
          · intro e h
            rw [he] at h
            simp at h
          · intro h
            rw [he] at h
            simp at h
          · intro r h
            rw [he] at h
            have hrr : r0 = r := by simpa using h
            subst hrr
            constructor
            · rw [hr0eq]
              exact isRouteB_append_one g wi.route src wi.atP dst
                (inv.hroutes wi (List.getElem?_mem hwi))
                (isNbr_of_lookup g wi.atP dst nbrs hnbrs hdmem)
            · intro r2 hr2
              by_cases hc : r2.length ≤ wi.route.length
              · exact absurd (inv.hcover wi hwi dst r2 hr2 hc) inv.hdst
              · rw [hr0eq]
                simp only [List.length_append, List.length_cons, List.length_nil]
                omega
        | none =>
          have he := findRouteAux_step_cont g dst fuel work i wi nbrs work2
            hwi hnbrs hscan
          have inv' := inv_step g src dst hclosed work i inv wi hwi nbrs hnbrs
            work2 hscan
          obtain ⟨e1, e2, e3⟩ := ih work2 (i + 1) inv'
          rw [he]
          exact ⟨e1, e2, e3⟩

lemma findRouteAux_total (g : Graph) (src dst : Place) :
    ∀ (fuel : Nat) (work : List WorkItem) (i : Nat),
      (atPs work).Nodup →
      (∀ p ∈ atPs work, p ∈ src :: nbrUniverse g) →
      (nbrUniverse g).length + 2 ≤ fuel + i →
      findRouteAux g dst fuel work i ≠ none := by
  intro fuel
  induction fuel with
  | zero =>
    intro work i hnodup hsub hfuel
    have hlen : work.length ≤ (nbrUniverse g).length + 1 := by
      have h1 : (atPs work).length ≤ (src :: nbrUniverse g).length :=
        (List.subperm_of_subset hnodup hsub).length_le
      simpa [atPs] using h1
    have hwi : work[i]? = none := List.getElem?_eq_none (by omega)
    rw [findRouteAux_none_eq g dst 0 work i hwi]
    simp
  | succ fuel ih =>
    intro work i hnodup hsub hfuel
    cases hwi : work[i]? with
    | none =>
      rw [findRouteAux_none_eq g dst (fuel + 1) work i hwi]
      simp
    | some wi =>
      cases hl : lookupG g wi.atP with
      | none =>
        rw [findRouteAux_step_err g dst fuel work i wi hwi hl]
        simp
      | some nbrs =>
        cases hscan : scanNbrs dst wi.route nbrs work with
        | mk found work2 =>
          cases found with
          | some r =>
            rw [findRouteAux_step_found g dst fuel work i wi nbrs r work2 hwi hl hscan]
            simp
          | none =>
            rw [findRouteAux_step_cont g dst fuel work i wi nbrs work2 hwi hl hscan]
            obtain ⟨newItems, hw2, hprops⟩ := scanNbrs_shape dst wi.route nbrs work
            have hsnd : (scanNbrs dst wi.route nbrs work).2 = work2 := by rw [hscan]
            rw [hsnd] at hw2
            refine ih work2 (i + 1) ?_ ?_ (by omega)
            · have h2 := scanNbrs_nodup dst wi.route nbrs work hnodup
              rwa [hsnd] at h2
            · intro p hp
              rw [hw2, atPs_append] at hp
              rcases List.mem_append.mp hp with h2 | h2
              · exact hsub p h2
              · obtain ⟨it, hit, hat⟩ := List.mem_map.mp h2
                subst hat
                exact List.mem_cons.mpr
                  (Or.inr (mem_nbrUniverse_of_lookup g wi.atP nbrs hl it.atP
                    (hprops it hit).2.1))

lemma findRouteAux_some_shape (g : Graph) (dst : Place) :
    ∀ (fuel : Nat) (work : List WorkItem) (i : Nat) (r : List Place),
      findRouteAux g dst fuel work i = some (.ok (some r)) →
      ∃ xs, r = xs ++ [dst] := by
  intro fuel
  induction fuel with
  | zero =>
    intro work i r h
    cases hwi : work[i]? with
    | none =>
      rw [findRouteAux_none_eq g dst 0 work i hwi] at h
      simp at h
    | some wi =>
      rw [findRouteAux_zero_eq g dst work i wi hwi] at h
      cases h
  | succ fuel ih =>
    intro work i r h
    cases hwi : work[i]? with
    | none =>
      rw [findRouteAux_none_eq g dst (fuel + 1) work i hwi] at h
      simp at h
    | some wi =>
      cases hl : lookupG g wi.atP with
      | none =>
        rw [findRouteAux_step_err g dst fuel work i wi hwi hl] at h
        simp at h
      | some nbrs =>
        cases hscan : scanNbrs dst wi.route nbrs work with
        | mk found work2 =>
          cases found with
          | some r0 =>
            rw [findRouteAux_step_found g dst fuel work i wi nbrs r0 work2
              hwi hl hscan] at h
            have hrr : r0 = r := by simpa using h
            obtain ⟨heq, _⟩ := scanNbrs_found_some dst wi.route nbrs work r0
              (by rw [hscan])
            exact ⟨wi.route, by rw [← hrr, heq]⟩
          | none =>
            rw [findRouteAux_step_cont g dst fuel work i wi nbrs work2
              hwi hl hscan] at h
            exact ih work2 (i + 1) r h

lemma findRoute_spec (g : Graph) (src dst : Place)
    (hclosed : ∀ p ∈ nbrUniverse g, ∃ ns, lookupG g p = some ns)
    (hsrcreg : ∃ ns, lookupG g src = some ns) (hne : src ≠ dst) :
    (∀ e, findRoute g src dst ≠ .error e) ∧
    (findRoute g src dst = .ok none → ∀ r, isRouteB g src r dst = false) ∧
    (∀ r, findRoute g src dst = .ok (some r) →
      isRouteB g src r dst = true ∧
      ∀ r2, isRouteB g src r2 dst = true → r.length ≤ r2.length) := by
  have hinv := inv_init g src dst hne hsrcreg
  obtain ⟨e1, e2, e3⟩ := bfs_sound g src dst hclosed (fuelBound g) [⟨src, []⟩] 0 hinv
  have htot := findRouteAux_total g src dst (fuelBound g) [⟨src, []⟩] 0
    (by simp [atPs]) (by simp [atPs]) (by simp [fuelBound])
  unfold findRoute
  cases haux : findRouteAux g dst (fuelBound g) [⟨src, []⟩] 0 with
  | none => exact absurd haux htot
  | some res =>
    dsimp only
    cases res with
    | error e =>
      exact absurd haux (e1 e)
    | ok o =>
      cases o with
      | none =>
        refine ⟨by simp, fun _ => e2 haux, ?_⟩
        intro r h
        simp at h
      | some r0 =>
        refine ⟨by simp, by intro h; simp at h, ?_⟩
        intro r h
        have hrr : r0 = r := by simpa using h
        subst hrr
        exact e3 r0 haux

end BfsSound

/-- C1: on every graph built from an edge list, whenever the target is
reachable from the start and distinct from it, `findRoute` succeeds and
returns a valid route whose length is minimal among all routes (the true
shortest-path edge count); in particular on the graph built from
`["A-B", "B-C"]` it returns `["B", "C"]` for the query from A to C. -/
theorem findRoute_bfs_shortest :
    (∀ (edges : List String) (src dst : Place) (r0 : List Place),
      isRouteB (buildGraph edges) src r0 dst = true → src ≠ dst →
      ∃ r, findRoute (buildGraph edges) src dst = .ok (some r) ∧
        isRouteB (buildGraph edges) src r dst = true ∧
        ∀ r2, isRouteB (buildGraph edges) src r2 dst = true →
          r.length ≤ r2.length) ∧
    findRoute (buildGraph ["A-B", "B-C"]) "A" "C" = .ok (some ["B", "C"]) := by
  constructor
  · intro edges src dst r0 hr0 hne
    have hsrcreg : ∃ ns, lookupG (buildGraph edges) src = some ns := by
      cases r0 with
      | nil =>
        simp only [isRouteB, decide_eq_true_eq] at hr0
        exact absurd hr0 hne
      | cons p ps =>
        simp only [isRouteB, Bool.and_eq_true] at hr0
        obtain ⟨ns, hns, _⟩ := isNbr_lookup _ _ _ hr0.1
        exact ⟨ns, hns⟩
    obtain ⟨e1, e2, e3⟩ := findRoute_spec (buildGraph edges) src dst
      (buildGraph_closed edges) hsrcreg hne
    cases hfr : findRoute (buildGraph edges) src dst with
    | error e => exact absurd hfr (e1 e)
    | ok o =>
      cases o with
      | none =>
        have := e2 hfr r0
        rw [hr0] at this
        cases this
      | some r => exact ⟨r, rfl, e3 r hfr⟩
  · decide

/-- Witness for C1: the general statement applied to the path graph
`["A-B", "B-C"]`, where `["B", "C"]` witnesses reachability of C from A. -/
theorem findRoute_bfs_shortest_witness :
    ∃ r, findRoute (buildGraph ["A-B", "B-C"]) "A" "C" = .ok (some r) ∧
      isRouteB (buildGraph ["A-B", "B-C"]) "A" r "C" = true ∧
      ∀ r2, isRouteB (buildGraph ["A-B", "B-C"]) "A" r2 "C" = true →
        r.length ≤ r2.length :=
  findRoute_bfs_shortest.1 ["A-B", "B-C"] "A" "C" ["B", "C"] (by decide) (by decide)

/-- Counterexample for C6 as stated: on the graph built from `["A-B"]` the
query `findRoute(g, "A", "A")` does not return the empty route - it
returns the round trip `["B", "A"]` through the first neighbor. -/
theorem findRoute_self_cex :
    findRoute (buildGraph ["A-B"]) "A" "A" = .ok (some ["B", "A"]) ∧
    findRoute (buildGraph ["A-B"]) "A" "A" ≠ .ok (some ([] : List Place)) := by
  constructor
  · decide
  · decide

/-- C6 (amended): `findRoute(g, a, a)` never yields the empty route: every
route it returns is non-empty and ends at `a` (the search only returns
`route.concat(place)` values), and on the graph built from `["A-B"]` the
self query returns the length-two round trip `["B", "A"]`. -/
theorem findRoute_self_nonempty :
    (∀ (g : Graph) (a : Place) (r : List Place),
      findRoute g a a = .ok (some r) → r ≠ [] ∧ ∃ xs, r = xs ++ [a]) ∧
    findRoute (buildGraph ["A-B"]) "A" "A" = .ok (some ["B", "A"]) := by
  constructor
  · intro g a r h
    unfold findRoute at h
    cases haux : findRouteAux g a (fuelBound g) [⟨a, []⟩] 0 with
    | none =>
      rw [haux] at h
      cases h
    | some res =>
      rw [haux] at h
      dsimp only at h
      subst h
      obtain ⟨xs, hxs⟩ := findRouteAux_some_shape g a (fuelBound g) [⟨a, []⟩] 0 r haux
      exact ⟨by simp [hxs], xs, hxs⟩
  · decide

/-- Witness for C6 (amended): the non-emptiness fact applied to the
concrete self query on the two-place graph. -/
theorem findRoute_self_nonempty_witness :
    (["B", "A"] : List Place) ≠ [] ∧ ∃ xs, (["B", "A"] : List Place) = xs ++ ["A"] :=
  findRoute_self_nonempty.1 (buildGraph ["A-B"]) "A" ["B", "A"] (by decide)

/-- Counterexample for C8 as stated: on the disconnected graph built from
`["A-B", "C-D"]`, the query from A to C does not fail with an error - it
falls off the search loop and silently returns the JavaScript `undefined`,
modelled as `.ok none`. -/
theorem findRoute_unreachable_cex :
    findRoute (buildGraph ["A-B", "C-D"]) "A" "C" = .ok none ∧
    ∀ e : JsError, findRoute (buildGraph ["A-B", "C-D"]) "A" "C" ≠ .error e := by
  constructor
  · decide
  · intro e
    cases e <;> decide

/-- C8 (amended): on a graph built from an edge list, when the target is
distinct from the registered start and unreachable from it, `findRoute`
exhausts its frontier and silently returns `undefined` (`.ok none`); no
error is raised. -/
theorem findRoute_unreachable_undefined (edges : List String) (src dst : Place)
    (hne : src ≠ dst) (hsrcreg : ∃ ns, lookupG (buildGraph edges) src = some ns)
    (hunreach : ∀ r, isRouteB (buildGraph edges) src r dst = false) :
    findRoute (buildGraph edges) src dst = .ok none := by
  obtain ⟨e1, e2, e3⟩ := findRoute_spec (buildGraph edges) src dst
    (buildGraph_closed edges) hsrcreg hne
  cases hfr : findRoute (buildGraph edges) src dst with
  | error e => exact absurd hfr (e1 e)
  | ok o =>
    cases o with
    | none => rfl
    | some r =>
      have := (e3 r hfr).1
      rw [hunreach r] at this
      cases this

/-- Witness for C8 (amended): the disconnected two-component graph, where
unreachability of C from A is itself derived from the search machinery. -/
theorem findRoute_unreachable_undefined_witness :
    findRoute (buildGraph ["A-B", "C-D"]) "A" "C" = .ok none :=
  findRoute_unreachable_undefined ["A-B", "C-D"] "A" "C" (by decide)
    ⟨["B"], by decide⟩
    ((findRoute_spec (buildGraph ["A-B", "C-D"]) "A" "C"
      (buildGraph_closed ["A-B", "C-D"]) ⟨["B"], by decide⟩ (by decide)).2.1
      (by decide))

end Robot
